import Mathlib

/-! Shallow embedding of the TTS text-preprocessing module
(`wyoming_openai/preprocessing.py`).  Text is modelled as `List Char`;
each Python function becomes a Lean function of the same name.  Python's
`re.sub` calls are modelled by explicit scanners whose semantics follow
the regex engine (left-to-right scan, greedy quantifiers with
backtracking, lookarounds reading the original subject string). -/

/-- Characters of the lookbehind class `[.!?,;:]` in `remove_emojis`. -/
def isPunctBefore (c : Char) : Bool :=
  c = '.' || c = '!' || c = '?' || c = ',' || c = ';' || c = ':'

/-- The emoji character class of `remove_emojis`: the union of the Unicode
ranges listed in `emoji_pattern`. -/
def isEmoji (c : Char) : Bool :=
  (0x1F600 ≤ c.toNat && c.toNat ≤ 0x1F64F) ||
  (0x1F300 ≤ c.toNat && c.toNat ≤ 0x1F5FF) ||
  (0x1F680 ≤ c.toNat && c.toNat ≤ 0x1F6FF) ||
  (0x1F1E0 ≤ c.toNat && c.toNat ≤ 0x1F1FF) ||
  (0x2702 ≤ c.toNat && c.toNat ≤ 0x27B0) ||
  (0x24C2 ≤ c.toNat && c.toNat ≤ 0x1F251) ||
  (0x1F900 ≤ c.toNat && c.toNat ≤ 0x1F9FF) ||
  (0x1FA00 ≤ c.toNat && c.toNat ≤ 0x1FA6F) ||
  (0x1FA70 ≤ c.toNat && c.toNat ≤ 0x1FAFF)

/-- Characters matched by Python's regex `\s` (and removed by
`str.strip`), with Unicode semantics. -/
def pyIsSpace (c : Char) : Bool :=
  c.toNat = 32 || (9 ≤ c.toNat && c.toNat ≤ 13) ||
  (28 ≤ c.toNat && c.toNat ≤ 31) || c.toNat = 0x85 || c.toNat = 0xA0 ||
  c.toNat = 0x1680 || (0x2000 ≤ c.toNat && c.toNat ≤ 0x200A) ||
  c.toNat = 0x2028 || c.toNat = 0x2029 || c.toNat = 0x202F ||
  c.toNat = 0x205F || c.toNat = 0x3000

/-- Scanner for Python's `str.replace old new` with non-empty `old`:
left-to-right, non-overlapping.  The `Nat` argument counts characters of an
already-emitted match that remain to be skipped. -/
def pyReplaceSkip (old new : List Char) : Nat → List Char → List Char
  | _, [] => []
  | k+1, _ :: rest => pyReplaceSkip old new k rest
  | 0, c :: rest =>
    if old.isPrefixOf (c :: rest) then
      new ++ pyReplaceSkip old new (old.length - 1) rest
    else
      c :: pyReplaceSkip old new 0 rest

/-- Python `str.replace old new`: with an empty pattern the replacement is
inserted at every character boundary, otherwise `pyReplaceSkip` scans. -/
def pyReplace (l old new : List Char) : List Char :=
  if old.isEmpty then new ++ l.flatMap (fun c => c :: new)
  else pyReplaceSkip old new 0 l

/-- `apply_custom_replacements`: runs `str.replace` to completion for each
mapping entry, in the mapping's enumeration order. -/
def apply_custom_replacements (text : List Char)
    (replacements : List (List Char × List Char)) : List Char :=
  if replacements.isEmpty then text
  else replacements.foldl (fun t p => pyReplace t p.1 p.2) text

/-- Bracket characters deleted by the first substitution of
`remove_brackets_and_quotes` (`[\(\)\[\]\{\}<>]`). -/
def isBracketChar (c : Char) : Bool :=
  c = '(' || c = ')' || c = '[' || c = ']' ||
  c.toNat = 0x7B || c.toNat = 0x7D || c = '<' || c = '>'

/-- Quote characters deleted by the second substitution of
`remove_brackets_and_quotes`; the source's class repeats the ASCII double
quote and the ASCII apostrophe three times each and also holds the backtick
and the guillemets. -/
def isQuoteChar (c : Char) : Bool :=
  c = '"' || c.toNat = 0x27 || c.toNat = 0x60 || c = '«' || c = '»'

/-- `remove_brackets_and_quotes`: two character-class deletions. -/
def remove_brackets_and_quotes (text : List Char) : List Char :=
  (text.filter (fun c => !isBracketChar c)).filter (fun c => !isQuoteChar c)

/-- Scanner for `re.sub r&s+ sp`: every maximal whitespace run becomes one
space. The `Bool` records being inside a run whose space was emitted. -/
def collapseWS : Bool → List Char → List Char
  | _, [] => []
  | inRun, c :: rest =>
    if pyIsSpace c then
      (if inRun then [] else [' ']) ++ collapseWS true rest
    else
      c :: collapseWS false rest

/-- Python `str.strip`: drop whitespace from both ends. -/
def pyStrip (l : List Char) : List Char :=
  ((l.dropWhile pyIsSpace).reverse.dropWhile pyIsSpace).reverse

/-- `normalize_pauses`: replace every `...` by `,`, collapse whitespace
runs to single spaces, strip the ends. -/
def normalize_pauses (text : List Char) : List Char :=
  pyStrip (collapseWS false (pyReplace text ['.', '.', '.'] [',']))

/-- Index of the last newline of a list, if any. -/
def lastNewlineIdx : List Char → Option Nat
  | [] => none
  | c :: rest =>
    match lastNewlineIdx rest with
    | some j => some (j + 1)
    | none => if c = '\n' then some 0 else none

/-- Number of characters consumed by a match of the emoji-run part
`[emoji]+\s*(?=\n)` anchored at the head of `l` (greedy with backtracking):
the whole emoji run plus the following whitespace up to, and excluding, the
last newline inside that whitespace run.  `none` when no match starts
here. -/
def emojiRunMatch (l : List Char) : Option Nat :=
  if (l.takeWhile isEmoji).isEmpty then none
  else
    match lastNewlineIdx
        ((l.drop (l.takeWhile isEmoji).length).takeWhile pyIsSpace) with
    | some m => some ((l.takeWhile isEmoji).length + m)
    | none => none

/-- Pass 1 of `remove_emojis`: the substitution replacing a matched
emoji run (lookbehind not punctuation, lookahead a newline) by a period.
The `Nat` counts consumed match characters still to skip; the `Bool` says
whether the lookbehind at the current position succeeds — it reads the
original text, so it is threaded through skipped characters as well. -/
def emojiPass1 : Nat → Bool → List Char → List Char
  | _, _, [] => []
  | k+1, _, c :: rest => emojiPass1 k (!isPunctBefore c) rest
  | 0, prevOk, c :: rest =>
    if prevOk then
      match emojiRunMatch (c :: rest) with
      | some n => '.' :: emojiPass1 (n - 1) (!isPunctBefore c) rest
      | none => c :: emojiPass1 0 (!isPunctBefore c) rest
    else c :: emojiPass1 0 (!isPunctBefore c) rest

/-- `remove_emojis`: the period-insertion pass followed by unconditional
deletion of all remaining emoji characters. -/
def remove_emojis (text : List Char) : List Char :=
  (emojiPass1 0 true text).filter (fun c => !isEmoji c)

/-- Scanner for `re.sub` of the bold rule `\*\*([^*]+)\*\*` with
replacement `\1`.  The `Nat` counts matched characters still to skip; on a
failed attempt the scan advances one character. -/
def mdBold : Nat → List Char → List Char
  | _, [] => []
  | k+1, _ :: rest => mdBold k rest
  | 0, c :: rest =>
    if c = '*' then
      match rest with
      | '*' :: rest2 =>
        let body := rest2.takeWhile (fun d => !(d = '*'))
        if body.isEmpty then c :: mdBold 0 rest
        else
          match rest2.drop body.length with
          | '*' :: '*' :: _ => body ++ mdBold (1 + body.length + 2) rest
          | _ => c :: mdBold 0 rest
      | _ => c :: mdBold 0 rest
    else c :: mdBold 0 rest

/-- Scanner for the italic rule `\*([^*]+)\*` → `\1`. -/
def mdItalic : Nat → List Char → List Char
  | _, [] => []
  | k+1, _ :: rest => mdItalic k rest
  | 0, c :: rest =>
    if c = '*' then
      let body := rest.takeWhile (fun d => !(d = '*'))
      if body.isEmpty then c :: mdItalic 0 rest
      else
        match rest.drop body.length with
        | '*' :: _ => body ++ mdItalic (body.length + 1) rest
        | _ => c :: mdItalic 0 rest
    else c :: mdItalic 0 rest

/-- Scanner for the strikethrough rule `~~([^~]+)~~` → `\1`. -/
def mdStrike : Nat → List Char → List Char
  | _, [] => []
  | k+1, _ :: rest => mdStrike k rest
  | 0, c :: rest =>
    if c = '~' then
      match rest with
      | '~' :: rest2 =>
        let body := rest2.takeWhile (fun d => !(d = '~'))
        if body.isEmpty then c :: mdStrike 0 rest
        else
          match rest2.drop body.length with
          | '~' :: '~' :: _ => body ++ mdStrike (1 + body.length + 2) rest
          | _ => c :: mdStrike 0 rest
      | _ => c :: mdStrike 0 rest
    else c :: mdStrike 0 rest

/-- Scanner for the inline-code rule (backtick, one-or-more non-backtick
characters, backtick → the body). -/
def mdCode : Nat → List Char → List Char
  | _, [] => []
  | k+1, _ :: rest => mdCode k rest
  | 0, c :: rest =>
    if c.toNat = 0x60 then
      let body := rest.takeWhile (fun d => !(d.toNat = 0x60))
      if body.isEmpty then c :: mdCode 0 rest
      else
        match rest.drop body.length with
        | d :: _ =>
          if d.toNat = 0x60 then body ++ mdCode (body.length + 1) rest
          else c :: mdCode 0 rest
        | _ => c :: mdCode 0 rest
    else c :: mdCode 0 rest

/-- Scanner for the heading rule `^#+\s+` → nothing, `re.MULTILINE`.
The `Bool` says whether the current position is a line start (string start
or just after a newline of the original text); it is threaded through
skipped characters so that a match ending in a newline re-enables it. -/
def mdHeader : Nat → Bool → List Char → List Char
  | _, _, [] => []
  | k+1, _, c :: rest => mdHeader k (c = '\n') rest
  | 0, atStart, c :: rest =>
    if atStart && c = '#' then
      let hashes := rest.takeWhile (fun d => d = '#')
      let ws := (rest.drop hashes.length).takeWhile pyIsSpace
      if ws.isEmpty then c :: mdHeader 0 false rest
      else mdHeader (hashes.length + ws.length) (c = '\n') rest
    else c :: mdHeader 0 (c = '\n') rest

/-- Scanner for the link rule `\[([^\]]+)\]\([^\)]+\)` → `\1`. -/
def mdLink : Nat → List Char → List Char
  | _, [] => []
  | k+1, _ :: rest => mdLink k rest
  | 0, c :: rest =>
    if c = '[' then
      let body := rest.takeWhile (fun d => !(d = ']'))
      if body.isEmpty then c :: mdLink 0 rest
      else
        match rest.drop body.length with
        | ']' :: '(' :: rest2 =>
          let url := rest2.takeWhile (fun d => !(d = ')'))
          if url.isEmpty then c :: mdLink 0 rest
          else
            match rest2.drop url.length with
            | ')' :: _ =>
              body ++ mdLink (body.length + 2 + url.length + 1) rest
            | _ => c :: mdLink 0 rest
        | _ => c :: mdLink 0 rest
    else c :: mdLink 0 rest

/-- `remove_markdown`: the six substitutions in source order (bold,
italic, strikethrough, inline code, headings, links). -/
def remove_markdown (text : List Char) : List Char :=
  mdLink 0 (mdHeader 0 true (mdCode 0 (mdStrike 0 (mdItalic 0 (mdBold 0 text)))))

/-- `preprocess_for_tts`: the orchestrator, applying each enabled stage in
source order; the custom-replacement stage runs only when the mapping is
non-empty (Python's truthiness test on the dict). -/
def preprocess_for_tts (text : List Char)
    (remove_emoji remove_md remove_brackets_quotes : Bool)
    (custom_replacements : List (List Char × List Char))
    (normalize_pause : Bool) : List Char :=
  let t1 := if remove_emoji then remove_emojis text else text
  let t2 := if remove_md then remove_markdown t1 else t1
  let t3 := if remove_brackets_quotes then remove_brackets_and_quotes t2 else t2
  let t4 := if !custom_replacements.isEmpty then
      apply_custom_replacements t3 custom_replacements
    else t3
  if normalize_pause then normalize_pauses t4 else t4

/-- Written from the spec's words (§4.6), for comparison with the code's
orchestrator: a stage that is applied when enabled and is the identity
otherwise. -/
def enabledStage (enabled : Bool) (f : List Char → List Char) :
    List Char → List Char :=
  fun t => if enabled then f t else t

/-- Written from the spec's words (§4.6), for comparison with the code's
orchestrator: the pipeline as the composition of the enabled standalone
filters in the fixed order emoji remover → markdown stripper →
bracket/quote stripper → custom lexical replacer → pause normalizer. -/
def pipelineSpec (remove_emoji remove_md remove_brackets_quotes : Bool)
    (custom_replacements : List (List Char × List Char))
    (normalize_pause : Bool) : List Char → List Char :=
  enabledStage normalize_pause normalize_pauses ∘
  enabledStage (!custom_replacements.isEmpty)
    (fun t => apply_custom_replacements t custom_replacements) ∘
  enabledStage remove_brackets_quotes remove_brackets_and_quotes ∘
  enabledStage remove_md remove_markdown ∘
  enabledStage remove_emoji remove_emojis

/-- C5: concrete behavior of the emoji remover: a period is substituted
before a newline when no punctuation precedes, and a mid-text emoji is
deleted without substitution, leaving surrounding whitespace uncollapsed. -/
theorem C5_emoji_examples :
    remove_emojis ("Great job🎉\nNext line".toList) =
      ("Great job.\nNext line".toList) ∧
    remove_emojis ("Great 🎉 job".toList) = ("Great  job".toList) :=
  ⟨by decide, by decide⟩

/-- C1 counterexample: on the documented example input the pipeline keeps
the exclamation mark after "world" (no stage rewrites it), so it does not
return the claimed output, which has a period there. -/
theorem C1_pipeline_counterexample :
    preprocess_for_tts ("**Hello** world! 🐍 Check API docs...".toList)
        true true true [("API".toList, "A P I".toList)] true ≠
      ("Hello world. Check A P I docs,".toList) := by decide

/-- C1 amended: the full pipeline applied to that input returns exactly
"Hello world! Check A P I docs," (bold stripped, emoji deleted, custom
replacement applied, ellipsis converted, whitespace collapsed). -/
theorem C1_pipeline_amended :
    preprocess_for_tts ("**Hello** world! 🐍 Check API docs...".toList)
        true true true [("API".toList, "A P I".toList)] true =
      ("Hello world! Check A P I docs,".toList) := by decide

/-- C2 counterexample: with a run of two emoji after "!" a period is
inserted after all (the lookbehind only guards the first character of the
run), and with a single emoji followed by a space before the newline the
trailing whitespace is not deleted. -/
theorem C2_counterexample :
    (remove_emojis ("Done!🎉🎉\nNext".toList) = ("Done!.\nNext".toList) ∧
      (("Done!.\nNext".toList) : List Char) ≠ ("Done!\nNext".toList)) ∧
    (remove_emojis ("Done!🎉 \nNext".toList) = ("Done! \nNext".toList) ∧
      (("Done! \nNext".toList) : List Char) ≠ ("Done!\nNext".toList)) :=
  ⟨⟨by decide, by decide⟩, ⟨by decide, by decide⟩⟩

/-- C3 counterexample: with two consecutive newlines after the emoji, the
greedy whitespace part of the substitution consumes the first newline, so
the output of the emoji remover has fewer newline characters than the
input. -/
theorem C3_counterexample :
    (remove_emojis ("🎉\n\nX".toList)).count '\n' ≠
      (("🎉\n\nX".toList) : List Char).count '\n' := by decide

/-- C4: the orchestrator returns exactly the composition of the enabled
standalone filters in the fixed order emoji remover → markdown stripper →
bracket/quote stripper → custom lexical replacer → pause normalizer, with
disabled stages acting as the identity; with every stage disabled and no
replacement mapping it returns its input unchanged. -/
theorem C4_orchestrator_is_composition :
    (∀ (text : List Char) (e md bq np : Bool)
        (reps : List (List Char × List Char)),
      preprocess_for_tts text e md bq reps np =
        pipelineSpec e md bq reps np text) ∧
    (∀ text : List Char,
      preprocess_for_tts text false false false [] false = text) :=
  ⟨fun _ _ _ _ _ _ => rfl, fun _ => rfl⟩

/-- C6: the custom lexical replacer processes mapping entries sequentially
in enumeration order — each entry's replacement runs to completion over the
whole text before the next entry starts, so the cascade A→B, B→C rewrites
"A" to "C" — and the empty mapping leaves the text unchanged. -/
theorem C6_replacer_sequential :
    (∀ t : List Char, apply_custom_replacements t [] = t) ∧
    (∀ (t : List Char) (r : List Char × List Char)
        (rs : List (List Char × List Char)),
      apply_custom_replacements t (r :: rs) =
        apply_custom_replacements (pyReplace t r.1 r.2) rs) ∧
    apply_custom_replacements ("A".toList)
      [("A".toList, "B".toList), ("B".toList, "C".toList)] = "C".toList := by
  refine ⟨fun t => rfl, ?_, by decide⟩
  intro t r rs
  cases rs with
  | nil => rfl
  | cons r2 rs2 => rfl

/-- C7: the bracket/quote stripper is idempotent: its output contains none
of the delimiter characters it removes, so applying it twice yields the
same result as applying it once. -/
theorem C7_brackets_idempotent (text : List Char) :
    remove_brackets_and_quotes (remove_brackets_and_quotes text) =
      remove_brackets_and_quotes text := by
  simp only [remove_brackets_and_quotes, List.filter_filter]
  congr 1
  funext c
  cases hb : isBracketChar c <;> cases hq : isQuoteChar c <;> simp [hb, hq]

/-- Length of the interleaving produced by an empty-key replacement. -/
theorem length_flatMap_cons_val (s v : List Char) :
    (s.flatMap (fun c => c :: v)).length = s.length * (v.length + 1) := by
  induction s with
  | nil => simp
  | cons c s ih =>
    simp only [List.flatMap_cons, List.length_append, List.length_cons,
      List.length_cons, ih]
    ring

/-- C8: a mapping whose key is the empty string with a non-empty value v
makes the replacer insert v at every character boundary — including before
the first and after the last character — so the text is not returned
unchanged. -/
theorem C8_empty_key_inserts (s v : List Char) (hv : v ≠ []) :
    apply_custom_replacements s [([], v)] =
      v ++ s.flatMap (fun c => c :: v) ∧
    apply_custom_replacements s [([], v)] ≠ s := by
  have he : apply_custom_replacements s [([], v)] =
      v ++ s.flatMap (fun c => c :: v) := by
    simp [apply_custom_replacements, pyReplace]
  refine ⟨he, fun hcontra => ?_⟩
  have hlen : (v ++ s.flatMap (fun c => c :: v)).length = s.length := by
    rw [← he, hcontra]
  rw [List.length_append, length_flatMap_cons_val, Nat.mul_add,
    Nat.mul_one] at hlen
  have h1 : 1 ≤ v.length := List.length_pos.mpr hv
  omega

/-- C8 witness at s = "ab", v = "X": the replacer returns "XaXbX". -/
theorem C8_empty_key_inserts_witness :
    (("X".toList : List Char) ≠ []) ∧
    (apply_custom_replacements ("ab".toList) [([], "X".toList)] =
        "X".toList ++ ("ab".toList).flatMap (fun c => c :: "X".toList) ∧
      apply_custom_replacements ("ab".toList) [([], "X".toList)] ≠
        "ab".toList) :=
  ⟨by decide, C8_empty_key_inserts ("ab".toList) ("X".toList) (by decide)⟩

/-- Every emoji-class character lies at or above U+24C2. -/
theorem isEmoji_toNat_lb (c : Char) (h : isEmoji c = true) :
    0x24C2 ≤ c.toNat := by
  simp [isEmoji] at h
  omega

/-- The lookbehind punctuation characters are ASCII. -/
theorem isPunctBefore_toNat_ub (c : Char) (h : isPunctBefore c = true) :
    c.toNat ≤ 63 := by
  simp [isPunctBefore] at h
  rcases h with ((((h | h) | h) | h) | h) | h <;> subst h <;> decide

/-- An emoji-class character is not a lookbehind punctuation character. -/
theorem isEmoji_not_punct (c : Char) (h : isEmoji c = true) :
    isPunctBefore c = false := by
  cases hp : isPunctBefore c with
  | false => rfl
  | true =>
    have h1 := isEmoji_toNat_lb c h
    have h2 := isPunctBefore_toNat_ub c hp
    omega

/-- A lookbehind punctuation character is not an emoji-class character. -/
theorem isPunct_not_emoji (c : Char) (h : isPunctBefore c = true) :
    isEmoji c = false := by
  cases he : isEmoji c with
  | false => rfl
  | true =>
    have h1 := isEmoji_toNat_lb c he
    have h2 := isPunctBefore_toNat_ub c h
    omega

/-- A whitespace character is not a lookbehind punctuation character. -/
theorem pyIsSpace_not_punct (c : Char) (h : pyIsSpace c = true) :
    isPunctBefore c = false := by
  cases hp : isPunctBefore c with
  | false => rfl
  | true =>
    exfalso
    simp [isPunctBefore] at hp
    rcases hp with ((((e | e) | e) | e) | e) | e <;> subst e <;>
      exact absurd h (by decide)

/-- The emoji-run pattern cannot match at a non-emoji character. -/
theorem emojiRunMatch_eq_none (c : Char) (l : List Char)
    (h : isEmoji c = false) : emojiRunMatch (c :: l) = none := by
  simp [emojiRunMatch, List.takeWhile_cons, h]

/-- Lookbehind state after scanning past the characters of `pre`. -/
def prevOkAfter (prevOk : Bool) (pre : List Char) : Bool :=
  pre.foldl (fun _ c => !isPunctBefore c) prevOk

/-- Pass 1 copies any emoji-free block unchanged, updating only the
lookbehind state. -/
theorem emojiPass1_append_noEmoji (pre : List Char) :
    ∀ (prevOk : Bool) (rest : List Char),
      (∀ c ∈ pre, isEmoji c = false) →
      emojiPass1 0 prevOk (pre ++ rest) =
        pre ++ emojiPass1 0 (prevOkAfter prevOk pre) rest := by
  induction pre with
  | nil => intro prevOk rest h; rfl
  | cons c pre ih =>
    intro prevOk rest h
    have hc : isEmoji c = false := h c (List.mem_cons_self c pre)
    have hrm := emojiRunMatch_eq_none c (pre ++ rest) hc
    have hrest : ∀ d ∈ pre, isEmoji d = false :=
      fun d hd => h d (List.mem_cons_of_mem c hd)
    cases prevOk <;>
      simp [emojiPass1, hrm, ih _ rest hrest, prevOkAfter]

/-- C2 amended: the no-period behavior behind a punctuation character holds
when the emoji run has length one — for a text of the shape
`pre ++ p :: e :: ws ++ '\n' :: suf` with `pre` emoji-free, `p` one of
`. ! ? , ; :`, `e` an emoji and `ws` emoji-free whitespace, the emoji
remover deletes only the emoji character itself: no period is inserted and
the trailing whitespace survives. -/
theorem C2_amended (pre ws suf : List Char) (p e : Char)
    (hpre : ∀ c ∈ pre, isEmoji c = false)
    (hp : isPunctBefore p = true)
    (he : isEmoji e = true)
    (hws : ∀ c ∈ ws, pyIsSpace c = true ∧ isEmoji c = false) :
    remove_emojis (pre ++ p :: e :: (ws ++ '\n' :: suf)) =
      pre ++ p :: (ws ++ '\n' :: remove_emojis suf) := by
  have hpe : isEmoji p = false := isPunct_not_emoji p hp
  have h1 : ∀ c ∈ pre ++ [p], isEmoji c = false := by
    intro c hc
    rcases List.mem_append.mp hc with h | h
    · exact hpre c h
    · rcases List.mem_singleton.mp h with rfl
      exact hpe
  have h2 : ∀ c ∈ ws ++ ['\n'], isEmoji c = false := by
    intro c hc
    rcases List.mem_append.mp hc with h | h
    · exact (hws c h).2
    · rcases List.mem_singleton.mp h with rfl
      decide
  unfold remove_emojis
  have e1 : pre ++ p :: e :: (ws ++ '\n' :: suf) =
      (pre ++ [p]) ++ e :: ((ws ++ ['\n']) ++ suf) := by simp
  rw [e1, emojiPass1_append_noEmoji (pre ++ [p]) true _ h1]
  have e2 : prevOkAfter true (pre ++ [p]) = false := by
    simp [prevOkAfter, List.foldl_append, hp]
  rw [e2]
  have e3 : emojiPass1 0 false (e :: ((ws ++ ['\n']) ++ suf)) =
      e :: emojiPass1 0 (!isPunctBefore e) ((ws ++ ['\n']) ++ suf) := by
    simp [emojiPass1]
  rw [e3, isEmoji_not_punct e he,
    emojiPass1_append_noEmoji (ws ++ ['\n']) _ _ h2]
  have e4 : prevOkAfter (!false) (ws ++ ['\n']) = true := by
    simp [prevOkAfter, List.foldl_append]
    decide
  rw [e4]
  have f1 : pre.filter (fun c => !isEmoji c) = pre :=
    List.filter_eq_self.mpr (fun c hc => by simp [hpre c hc])
  have f2 : ws.filter (fun c => !isEmoji c) = ws :=
    List.filter_eq_self.mpr (fun c hc => by simp [(hws c hc).2])
  simp [List.filter_append, List.filter_cons, f1, f2, he, hpe,
    (by decide : isEmoji '\n' = false)]

/-- C2 witness at pre = "Done", p = '!', e = '🎉', ws = "", suf = "Next":
the run of length one behind "!" is deleted with no period. -/
theorem C2_amended_witness :
    isEmoji '🎉' = true ∧
    remove_emojis ("Done".toList ++ '!' :: '🎉' ::
        ([] ++ '\n' :: "Next".toList)) =
      "Done".toList ++ '!' :: ([] ++ '\n' :: remove_emojis ("Next".toList)) :=
  ⟨by decide, C2_amended ("Done".toList) [] ("Next".toList) '!' '🎉'
    (by decide) (by decide) (by decide) (by decide)⟩

/-- The last-newline index points at a newline inside the list. -/
theorem lastNewlineIdx_spec (ws : List Char) (m : Nat)
    (h : lastNewlineIdx ws = some m) :
    ws[m]? = some '\n' ∧ m < ws.length := by
  induction ws generalizing m with
  | nil => simp [lastNewlineIdx] at h
  | cons c rest ih =>
    rw [lastNewlineIdx] at h
    cases hr : lastNewlineIdx rest with
    | some j =>
      rw [hr] at h
      cases h
      have hj := ih j hr
      constructor
      · simpa using hj.1
      · simp
        omega
    | none =>
      rw [hr] at h
      by_cases hc : c = '\n'
      · rw [if_pos hc] at h
        cases h
        subst hc
        exact ⟨by simp, by simp⟩
      · rw [if_neg hc] at h
        exact Option.noConfusion h

/-- C3 amended: when the period-insertion substitution fires, the consumed
text always ends immediately before a newline — the lookahead newline is
never consumed (though the consumed whitespace may contain earlier
newlines). -/
theorem C3_amended (l : List Char) (n : Nat)
    (h : emojiRunMatch l = some n) : (l.drop n).head? = some '\n' := by
  unfold emojiRunMatch at h
  cases hrun : (l.takeWhile isEmoji).isEmpty with
  | true => rw [hrun] at h; simp at h
  | false =>
    rw [if_neg (by simp [hrun])] at h
    cases hlni : lastNewlineIdx
        ((l.drop (l.takeWhile isEmoji).length).takeWhile pyIsSpace) with
    | none => rw [hlni] at h; simp at h
    | some m =>
      rw [hlni] at h
      simp at h
      subst h
      have hspec := lastNewlineIdx_spec _ m hlni
      rw [← List.drop_drop, List.head?_drop]
      have hdec : l.drop (l.takeWhile isEmoji).length =
          ((l.drop (l.takeWhile isEmoji).length).takeWhile pyIsSpace) ++
            ((l.drop (l.takeWhile isEmoji).length).dropWhile pyIsSpace) :=
        (List.takeWhile_append_dropWhile pyIsSpace _).symm
      rw [hdec, List.getElem?_append_left hspec.2]
      exact hspec.1

/-- C3 amended witness: at "🎉\nX" the match consumes exactly the emoji and
stops in front of the newline. -/
theorem C3_amended_witness :
    emojiRunMatch ("🎉\nX".toList) = some 1 ∧
    ((("🎉\nX".toList) : List Char).drop 1).head? = some '\n' :=
  ⟨by decide, C3_amended ("🎉\nX".toList) 1 (by decide)⟩

/-- A block of characters all satisfying `p` passes through `takeWhile`. -/
theorem takeWhile_append_of_all (p : Char → Bool) (l1 l2 : List Char)
    (h : ∀ c ∈ l1, p c = true) :
    (l1 ++ l2).takeWhile p = l1 ++ l2.takeWhile p := by
  induction l1 with
  | nil => rfl
  | cons c l1 ih =>
    rw [List.cons_append, List.takeWhile_cons,
      if_pos (h c (List.mem_cons_self c l1)),
      ih (fun d hd => h d (List.mem_cons_of_mem c hd))]
    rfl

/-- `takeWhile` on a satisfying block followed by a failing character is
the block itself. -/
theorem takeWhile_append_stop (p : Char → Bool) (l1 l2 : List Char)
    (h1 : ∀ c ∈ l1, p c = true)
    (h2 : ∀ c, l2.head? = some c → p c = false) :
    (l1 ++ l2).takeWhile p = l1 := by
  rw [takeWhile_append_of_all p l1 l2 h1]
  have hl2 : l2.takeWhile p = [] := by
    cases l2 with
    | nil => rfl
    | cons c rest =>
      rw [List.takeWhile_cons, if_neg (by simp [h2 c rfl])]
  rw [hl2, List.append_nil]

/-- A newline-free list has no last-newline index. -/
theorem lastNewlineIdx_none (l : List Char) (h : ∀ c ∈ l, c ≠ '\n') :
    lastNewlineIdx l = none := by
  induction l with
  | nil => rfl
  | cons c rest ih =>
    rw [lastNewlineIdx, ih (fun d hd => h d (List.mem_cons_of_mem c hd))]
    exact if_neg (h c (List.mem_cons_self c rest))

/-- With newline-free surroundings, the last newline is the explicit
one. -/
theorem lastNewlineIdx_append_nl (l1 l2 : List Char)
    (h1 : ∀ c ∈ l1, c ≠ '\n') (h2 : ∀ c ∈ l2, c ≠ '\n') :
    lastNewlineIdx (l1 ++ '\n' :: l2) = some l1.length := by
  induction l1 with
  | nil =>
    rw [List.nil_append, lastNewlineIdx, lastNewlineIdx_none l2 h2]
    rfl
  | cons c l1 ih =>
    rw [List.cons_append, lastNewlineIdx,
      ih (fun d hd => h1 d (List.mem_cons_of_mem c hd))]
    rfl

/-- A list containing a newline has a last-newline index. -/
theorem lastNewlineIdx_mem (l : List Char) (h : '\n' ∈ l) :
    ∃ m, lastNewlineIdx l = some m := by
  induction l with
  | nil => simp at h
  | cons c rest ih =>
    rw [lastNewlineIdx]
    cases hr : lastNewlineIdx rest with
    | some j => exact ⟨j + 1, rfl⟩
    | none =>
      have hc : c = '\n' := by
        rcases List.mem_cons.mp h with hh | hh
        · exact hh.symm
        · obtain ⟨m2, hm2⟩ := ih hh
          rw [hm2] at hr
          exact Option.noConfusion hr
      exact ⟨0, if_pos hc⟩

/-- Skipping an entire block updates the lookbehind state by folding over
the block's characters. -/
theorem emojiPass1_skip_all (pre : List Char) :
    ∀ (b : Bool) (rest : List Char),
      emojiPass1 pre.length b (pre ++ rest) =
        emojiPass1 0 (prevOkAfter b pre) rest := by
  induction pre with
  | nil => intro b rest; rfl
  | cons c pre ih =>
    intro b rest
    rw [show (c :: pre).length = pre.length + 1 from rfl, List.cons_append,
      show emojiPass1 (pre.length + 1) b (c :: (pre ++ rest)) =
        emojiPass1 pre.length (!isPunctBefore c) (pre ++ rest) from rfl,
      ih]
    rfl

/-- Scanning past punctuation-free characters keeps the lookbehind
satisfied. -/
theorem prevOkAfter_notPunct (pre : List Char) :
    ∀ b, b = true → (∀ c ∈ pre, isPunctBefore c = false) →
      prevOkAfter b pre = true := by
  induction pre with
  | nil => intro b hb _; exact hb
  | cons c pre ih =>
    intro b _ h
    rw [show prevOkAfter b (c :: pre) =
        prevOkAfter (!isPunctBefore c) pre from rfl]
    exact ih (!isPunctBefore c)
      (by simp [h c (List.mem_cons_self c pre)])
      (fun d hd => h d (List.mem_cons_of_mem c hd))

/-- When the emoji-run pattern matches at the scan position with the
lookbehind satisfied, pass 1 emits a period and skips the match. -/
theorem emojiPass1_match (c : Char) (rest : List Char) (n : Nat)
    (h : emojiRunMatch (c :: rest) = some n) :
    emojiPass1 0 true (c :: rest) =
      '.' :: emojiPass1 (n - 1) (!isPunctBefore c) rest := by
  simp [emojiPass1, h]

/-- C9: a run of one-or-more emoji characters, optionally followed by
non-newline whitespace, immediately before a line break at the very start
of the text has no preceding character, so the negative lookbehind is
vacuously satisfied and a period is inserted: the output of the emoji
remover starts with a period, and when the following line's leading
whitespace holds no further newline the output is exactly the period, the
line break and the processed remainder. -/
theorem C9_start_lookbehind_vacuous (run ws suf : List Char)
    (hrun : run ≠ []) (hrune : ∀ c ∈ run, isEmoji c = true)
    (hws : ∀ c ∈ ws, pyIsSpace c = true ∧ isEmoji c = false ∧ c ≠ '\n') :
    (remove_emojis (run ++ ws ++ '\n' :: suf)).head? = some '.' ∧
    ((∀ c ∈ suf.takeWhile pyIsSpace, c ≠ '\n') →
      remove_emojis (run ++ ws ++ '\n' :: suf) =
        '.' :: '\n' :: remove_emojis suf) := by
  obtain ⟨r0, run', hreq⟩ : ∃ r0 run', run = r0 :: run' := by
    cases run with
    | nil => exact absurd rfl hrun
    | cons a b => exact ⟨a, b, rfl⟩
  subst hreq
  rw [List.append_assoc, List.cons_append]
  have hr0 : isEmoji r0 = true := hrune r0 (List.mem_cons_self r0 run')
  have hrest0head : ∀ c, (ws ++ '\n' :: suf).head? = some c →
      isEmoji c = false := by
    cases ws with
    | nil =>
      intro c hc
      rw [List.nil_append] at hc
      simp at hc
      subst hc
      decide
    | cons w ws2 =>
      intro c hc
      rw [List.cons_append] at hc
      simp at hc
      subst hc
      exact (hws w (List.mem_cons_self w ws2)).2.1
  have htw : (r0 :: (run' ++ (ws ++ '\n' :: suf))).takeWhile isEmoji =
      r0 :: run' :=
    takeWhile_append_stop isEmoji (r0 :: run') (ws ++ '\n' :: suf) hrune
      hrest0head
  have hdr : (r0 :: (run' ++ (ws ++ '\n' :: suf))).drop
      (r0 :: run').length = ws ++ '\n' :: suf :=
    List.drop_left (r0 :: run') (ws ++ '\n' :: suf)
  have htws : (ws ++ '\n' :: suf).takeWhile pyIsSpace =
      ws ++ '\n' :: suf.takeWhile pyIsSpace := by
    rw [takeWhile_append_of_all pyIsSpace ws ('\n' :: suf)
      (fun c hc => (hws c hc).1)]
    rw [List.takeWhile_cons, if_pos (by decide)]
  have hnlmem : '\n' ∈ ws ++ '\n' :: suf.takeWhile pyIsSpace := by simp
  obtain ⟨m, hm⟩ := lastNewlineIdx_mem _ hnlmem
  have hmatch : emojiRunMatch (r0 :: (run' ++ (ws ++ '\n' :: suf))) =
      some ((r0 :: run').length + m) := by
    unfold emojiRunMatch
    rw [htw, hdr, htws, hm, if_neg (by simp)]
  have hp1 := emojiPass1_match r0 (run' ++ (ws ++ '\n' :: suf))
    ((r0 :: run').length + m) hmatch
  constructor
  · simp only [remove_emojis]
    rw [hp1]
    simp [List.filter_cons, (by decide : isEmoji '.' = false)]
  · intro hsufws
    have hm2 := lastNewlineIdx_append_nl ws (suf.takeWhile pyIsSpace)
      (fun c hc => (hws c hc).2.2) hsufws
    rw [hm] at hm2
    have hmeq := Option.some.inj hm2
    subst hmeq
    have hlen : (r0 :: run').length + ws.length - 1 = (run' ++ ws).length := by
      simp [List.length_append, List.length_cons]
    have hprev : prevOkAfter (!isPunctBefore r0) (run' ++ ws) = true := by
      apply prevOkAfter_notPunct
      · simp [isEmoji_not_punct r0 hr0]
      · intro c hc
        rcases List.mem_append.mp hc with h | h
        · exact isEmoji_not_punct c (hrune c (List.mem_cons_of_mem r0 h))
        · exact pyIsSpace_not_punct c (hws c h).1
    have hskip : emojiPass1 ((r0 :: run').length + ws.length - 1)
        (!isPunctBefore r0) (run' ++ (ws ++ '\n' :: suf)) =
        emojiPass1 0 true ('\n' :: suf) := by
      rw [← List.append_assoc, hlen,
        emojiPass1_skip_all (run' ++ ws) (!isPunctBefore r0) ('\n' :: suf),
        hprev]
    have hnl2 : emojiPass1 0 true ('\n' :: suf) =
        '\n' :: emojiPass1 0 true suf := by
      have hrm := emojiRunMatch_eq_none '\n' suf (by decide)
      simp [emojiPass1, hrm, (by decide : (!isPunctBefore '\n') = true)]
    simp only [remove_emojis]
    rw [hp1, hskip, hnl2]
    simp [List.filter_cons, (by decide : isEmoji '.' = false),
      (by decide : isEmoji '\n' = false)]

/-- C9 witness: a two-emoji run with trailing whitespace, a single emoji
with a whitespace-led next line, and a single emoji before a blank line all
get a period inserted at the start. -/
theorem C9_start_lookbehind_vacuous_witness :
    remove_emojis ("🎉🎉 \nHi".toList) = (".\nHi".toList) ∧
    remove_emojis ("🎉\n Hi".toList) = (".\n Hi".toList) ∧
    (remove_emojis ("🎉\n\nHi".toList)).head? = some '.' := by
  refine ⟨?_, ?_, ?_⟩
  · have h := (C9_start_lookbehind_vacuous ['🎉', '🎉'] [' ']
      ("Hi".toList) (by decide) (by decide) (by decide)).2 (by decide)
    rw [show ("🎉🎉 \nHi".toList : List Char) =
        ['🎉', '🎉'] ++ [' '] ++ '\n' :: "Hi".toList from by
      decide, h]
    decide
  · have h := (C9_start_lookbehind_vacuous ['🎉'] [] (" Hi".toList)
      (by decide) (by decide) (by decide)).2 (by decide)
    rw [show ("🎉\n Hi".toList : List Char) =
        ['🎉'] ++ [] ++ '\n' :: " Hi".toList from by decide, h]
    decide
  · have h := (C9_start_lookbehind_vacuous ['🎉'] [] ("\nHi".toList)
      (by decide) (by decide) (by decide)).1
    rw [show ("🎉\n\nHi".toList : List Char) =
        ['🎉'] ++ [] ++ '\n' :: "\nHi".toList from by decide]
    exact h

/-- A positive skip state just drops the skipped characters. -/
theorem pyReplaceSkip_skip_drop (old new : List Char) :
    ∀ (k : Nat) (l : List Char),
      pyReplaceSkip old new k l = pyReplaceSkip old new 0 (l.drop k) := by
  intro k
  induction k with
  | zero => intro l; rw [List.drop_zero]
  | succ k ih =>
    intro l
    cases l with
    | nil => rfl
    | cons c rest =>
      rw [show pyReplaceSkip old new (k+1) (c :: rest) =
          pyReplaceSkip old new k rest from rfl,
        show (c :: rest).drop (k+1) = rest.drop k from rfl]
      exact ih rest

/-- If the ellipsis replacement starts with a period, so did its input. -/
theorem replB1 (l : List Char)
    (h : ['.'] <+: pyReplaceSkip ['.', '.', '.'] [','] 0 l) : ['.'] <+: l := by
  cases l with
  | nil => simp [pyReplaceSkip] at h
  | cons c rest =>
    by_cases hp : (['.', '.', '.'] : List Char).isPrefixOf (c :: rest)
    · rw [show pyReplaceSkip ['.', '.', '.'] [','] 0 (c :: rest) =
          ',' :: pyReplaceSkip ['.', '.', '.'] [','] 2 rest from by
        simp [pyReplaceSkip, hp]] at h
      rcases List.cons_prefix_cons.mp h with ⟨h1, _⟩
      exact absurd h1 (by decide)
    · rw [show pyReplaceSkip ['.', '.', '.'] [','] 0 (c :: rest) =
          c :: pyReplaceSkip ['.', '.', '.'] [','] 0 rest from by
        simp [pyReplaceSkip, hp]] at h
      rcases List.cons_prefix_cons.mp h with ⟨h1, _⟩
      subst h1
      exact List.cons_prefix_cons.mpr ⟨rfl, List.nil_prefix⟩

/-- If the ellipsis replacement starts with two periods, so did its
input. -/
theorem replB2 (l : List Char)
    (h : ['.', '.'] <+: pyReplaceSkip ['.', '.', '.'] [','] 0 l) :
    ['.', '.'] <+: l := by
  cases l with
  | nil => simp [pyReplaceSkip] at h
  | cons c rest =>
    by_cases hp : (['.', '.', '.'] : List Char).isPrefixOf (c :: rest)
    · rw [show pyReplaceSkip ['.', '.', '.'] [','] 0 (c :: rest) =
          ',' :: pyReplaceSkip ['.', '.', '.'] [','] 2 rest from by
        simp [pyReplaceSkip, hp]] at h
      rcases List.cons_prefix_cons.mp h with ⟨h1, _⟩
      exact absurd h1 (by decide)
    · rw [show pyReplaceSkip ['.', '.', '.'] [','] 0 (c :: rest) =
          c :: pyReplaceSkip ['.', '.', '.'] [','] 0 rest from by
        simp [pyReplaceSkip, hp]] at h
      rcases List.cons_prefix_cons.mp h with ⟨h1, h2⟩
      subst h1
      exact List.cons_prefix_cons.mpr ⟨rfl, replB1 rest h2⟩

/-- The ellipsis replacement leaves no three consecutive periods
(length-bounded induction). -/
theorem repl_noTriple_aux :
    ∀ (n : Nat) (l : List Char), l.length ≤ n →
      ¬ (['.', '.', '.'] <:+: pyReplaceSkip ['.', '.', '.'] [','] 0 l) := by
  intro n
  induction n with
  | zero =>
    intro l hl
    have hnil : l = [] := List.length_eq_zero.mp (Nat.le_zero.mp hl)
    subst hnil
    simp [pyReplaceSkip]
  | succ n ih =>
    intro l hl
    cases l with
    | nil => simp [pyReplaceSkip]
    | cons c rest =>
      by_cases hp : (['.', '.', '.'] : List Char).isPrefixOf (c :: rest)
      · rw [show pyReplaceSkip ['.', '.', '.'] [','] 0 (c :: rest) =
            ',' :: pyReplaceSkip ['.', '.', '.'] [','] 2 rest from by
          simp [pyReplaceSkip, hp],
          pyReplaceSkip_skip_drop]
        intro h
        rcases List.infix_cons_iff.mp h with hpre | hinf
        · rcases List.cons_prefix_cons.mp hpre with ⟨h1, _⟩
          exact absurd h1 (by decide)
        · refine ih (rest.drop 2) ?_ hinf
          rw [List.length_drop]
          simp at hl
          omega
      · rw [show pyReplaceSkip ['.', '.', '.'] [','] 0 (c :: rest) =
            c :: pyReplaceSkip ['.', '.', '.'] [','] 0 rest from by
          simp [pyReplaceSkip, hp]]
        intro h
        rcases List.infix_cons_iff.mp h with hpre | hinf
        · rcases List.cons_prefix_cons.mp hpre with ⟨h1, h2⟩
          subst h1
          have h3 := replB2 rest h2
          have h4 : (['.', '.', '.'] : List Char) <+: '.' :: rest :=
            List.cons_prefix_cons.mpr ⟨rfl, h3⟩
          rw [← List.isPrefixOf_iff_prefix] at h4
          exact hp h4
        · exact ih rest (by simp at hl; omega) hinf

/-- The ellipsis replacement leaves no three consecutive periods. -/
theorem repl_noTriple (l : List Char) :
    ¬ (['.', '.', '.'] <:+: pyReplaceSkip ['.', '.', '.'] [','] 0 l) :=
  repl_noTriple_aux l.length l (Nat.le_refl _)

/-- A text without an ellipsis is unchanged by the ellipsis
replacement. -/
theorem repl_id (l : List Char) (h : ¬ (['.', '.', '.'] <:+: l)) :
    pyReplaceSkip ['.', '.', '.'] [','] 0 l = l := by
  induction l with
  | nil => rfl
  | cons c rest ih =>
    by_cases hp : (['.', '.', '.'] : List Char).isPrefixOf (c :: rest)
    · exfalso
      exact h (( List.isPrefixOf_iff_prefix).mp hp).isInfix
    · rw [show pyReplaceSkip ['.', '.', '.'] [','] 0 (c :: rest) =
          c :: pyReplaceSkip ['.', '.', '.'] [','] 0 rest from by
        simp [pyReplaceSkip, hp]]
      rw [ih (fun hc => h (hc.trans (List.suffix_cons c rest).isInfix))]

/-- The in-run collapse state equals restarting after the leading
whitespace. -/
theorem collapseWS_true_eq (l : List Char) :
    collapseWS true l = collapseWS false (l.dropWhile pyIsSpace) := by
  induction l with
  | nil => rfl
  | cons c rest ih =>
    cases hc : pyIsSpace c with
    | true => simp [collapseWS, List.dropWhile_cons, hc, ih]
    | false => simp [collapseWS, List.dropWhile_cons, hc]

/-- Every whitespace character the collapse emits is a plain space. -/
theorem col_spacesOk :
    ∀ (l : List Char) (b : Bool) (c : Char), c ∈ collapseWS b l →
      pyIsSpace c = true → c = ' ' := by
  intro l
  induction l with
  | nil => intro b c hc; simp [collapseWS] at hc
  | cons d rest ih =>
    intro b c hc hsp
    cases hd : pyIsSpace d with
    | true =>
      rw [show collapseWS b (d :: rest) =
          (if b then [] else [' ']) ++ collapseWS true rest from by
        simp [collapseWS, hd]] at hc
      rcases List.mem_append.mp hc with h | h
      · cases b with
        | true => simp at h
        | false => simpa using h
      · exact ih true c h hsp
    | false =>
      rw [show collapseWS b (d :: rest) = d :: collapseWS false rest from by
        simp [collapseWS, hd]] at hc
      rcases List.mem_cons.mp hc with h | h
      · subst h
        simp [hd] at hsp
      · exact ih false c h hsp

/-- The collapse keeps a non-whitespace head in place. -/
theorem collapseWS_false_head (m : List Char) (d : Char)
    (hm : m.head? = some d) (hd : pyIsSpace d = false) :
    (collapseWS false m).head? = some d := by
  cases m with
  | nil => simp at hm
  | cons e rest =>
    simp at hm
    subst hm
    simp [collapseWS, hd]

/-- The collapse leaves no two adjacent whitespace characters
(length-bounded induction). -/
theorem col_noDouble_aux :
    ∀ (n : Nat) (l : List Char), l.length ≤ n →
      ∀ a b, pyIsSpace a = true → pyIsSpace b = true →
        ¬ ([a, b] <:+: collapseWS false l) := by
  intro n
  induction n with
  | zero =>
    intro l hl a b ha hb
    have hnil : l = [] := List.length_eq_zero.mp (Nat.le_zero.mp hl)
    subst hnil
    simp [collapseWS]
  | succ n ih =>
    intro l hl a b ha hb h
    cases l with
    | nil => simp [collapseWS] at h
    | cons c rest =>
      cases hc : pyIsSpace c with
      | true =>
        rw [show collapseWS false (c :: rest) = ' ' :: collapseWS true rest
            from by simp [collapseWS, hc], collapseWS_true_eq] at h
        rcases List.infix_cons_iff.mp h with hpre | hinf
        · rcases List.cons_prefix_cons.mp hpre with ⟨h1, h2⟩
          cases hm : rest.dropWhile pyIsSpace with
          | nil =>
            rw [hm] at h2
            simp [collapseWS] at h2
          | cons d r2 =>
            have hd : pyIsSpace d = false := by
              have hnd := List.head?_dropWhile_not pyIsSpace rest
              rw [hm] at hnd
              simpa using hnd
            rw [hm, show collapseWS false (d :: r2) =
                d :: collapseWS false r2 from by simp [collapseWS, hd]] at h2
            rcases List.cons_prefix_cons.mp h2 with ⟨h3, _⟩
            subst h3
            rw [hd] at hb
            exact Bool.noConfusion hb
        · refine ih (rest.dropWhile pyIsSpace) ?_ a b ha hb hinf
          have h4 : (rest.dropWhile pyIsSpace).length ≤ rest.length :=
            (List.dropWhile_suffix pyIsSpace).sublist.length_le
          simp at hl
          omega
      | false =>
        rw [show collapseWS false (c :: rest) = c :: collapseWS false rest
            from by simp [collapseWS, hc]] at h
        rcases List.infix_cons_iff.mp h with hpre | hinf
        · rcases List.cons_prefix_cons.mp hpre with ⟨h1, _⟩
          subst h1
          rw [hc] at ha
          exact Bool.noConfusion ha
        · exact ih rest (by simp at hl; omega) a b ha hb hinf

/-- If the collapse output starts with a period, so did its input. -/
theorem colB1 (l : List Char) (h : ['.'] <+: collapseWS false l) :
    ['.'] <+: l := by
  cases l with
  | nil => simp [collapseWS] at h
  | cons c rest =>
    cases hc : pyIsSpace c with
    | true =>
      rw [show collapseWS false (c :: rest) = ' ' :: collapseWS true rest
          from by simp [collapseWS, hc]] at h
      rcases List.cons_prefix_cons.mp h with ⟨h1, _⟩
      exact absurd h1 (by decide)
    | false =>
      rw [show collapseWS false (c :: rest) = c :: collapseWS false rest
          from by simp [collapseWS, hc]] at h
      rcases List.cons_prefix_cons.mp h with ⟨h1, _⟩
      subst h1
      exact List.cons_prefix_cons.mpr ⟨rfl, List.nil_prefix⟩

/-- If the collapse output starts with two periods, so did its input. -/
theorem colB2 (l : List Char) (h : ['.', '.'] <+: collapseWS false l) :
    ['.', '.'] <+: l := by
  cases l with
  | nil => simp [collapseWS] at h
  | cons c rest =>
    cases hc : pyIsSpace c with
    | true =>
      rw [show collapseWS false (c :: rest) = ' ' :: collapseWS true rest
          from by simp [collapseWS, hc]] at h
      rcases List.cons_prefix_cons.mp h with ⟨h1, _⟩
      exact absurd h1 (by decide)
    | false =>
      rw [show collapseWS false (c :: rest) = c :: collapseWS false rest
          from by simp [collapseWS, hc]] at h
      rcases List.cons_prefix_cons.mp h with ⟨h1, h2⟩
      subst h1
      exact List.cons_prefix_cons.mpr ⟨rfl, colB1 rest h2⟩

/-- The collapse preserves the absence of a triple period
(length-bounded induction). -/
theorem col_noTriple_aux :
    ∀ (n : Nat) (l : List Char), l.length ≤ n →
      ¬ (['.', '.', '.'] <:+: l) →
      ¬ (['.', '.', '.'] <:+: collapseWS false l) := by
  intro n
  induction n with
  | zero =>
    intro l hl h0
    have hnil : l = [] := List.length_eq_zero.mp (Nat.le_zero.mp hl)
    subst hnil
    simp [collapseWS]
  | succ n ih =>
    intro l hl h0 h
    cases l with
    | nil => simp [collapseWS] at h
    | cons c rest =>
      cases hc : pyIsSpace c with
      | true =>
        rw [show collapseWS false (c :: rest) = ' ' :: collapseWS true rest
            from by simp [collapseWS, hc], collapseWS_true_eq] at h
        rcases List.infix_cons_iff.mp h with hpre | hinf
        · rcases List.cons_prefix_cons.mp hpre with ⟨h1, _⟩
          exact absurd h1 (by decide)
        · refine ih (rest.dropWhile pyIsSpace) ?_ ?_ hinf
          · have h4 : (rest.dropWhile pyIsSpace).length ≤ rest.length :=
              (List.dropWhile_suffix pyIsSpace).sublist.length_le
            simp at hl
            omega
          · intro hcontra
            exact h0 ((hcontra.trans
              (List.dropWhile_suffix pyIsSpace).isInfix).trans
              (List.suffix_cons c rest).isInfix)
      | false =>
        rw [show collapseWS false (c :: rest) = c :: collapseWS false rest
            from by simp [collapseWS, hc]] at h
        rcases List.infix_cons_iff.mp h with hpre | hinf
        · rcases List.cons_prefix_cons.mp hpre with ⟨h1, h2⟩
          subst h1
          have h3 := colB2 rest h2
          exact h0 (List.IsPrefix.isInfix
            (List.cons_prefix_cons.mpr ⟨rfl, h3⟩))
        · refine ih rest (by simp at hl; omega) ?_ hinf
          intro hcontra
          exact h0 (hcontra.trans (List.suffix_cons c rest).isInfix)

/-- A text whose whitespace is already collapsed (all spaces plain, none
adjacent) is unchanged by the collapse. -/
theorem col_id (l : List Char)
    (hso : ∀ c ∈ l, pyIsSpace c = true → c = ' ')
    (hnd : ∀ a b, pyIsSpace a = true → pyIsSpace b = true →
      ¬ ([a, b] <:+: l)) :
    collapseWS false l = l := by
  induction l with
  | nil => rfl
  | cons c rest ih =>
    have hso2 : ∀ d ∈ rest, pyIsSpace d = true → d = ' ' :=
      fun d hd hsp => hso d (List.mem_cons_of_mem c hd) hsp
    have hnd2 : ∀ a b, pyIsSpace a = true → pyIsSpace b = true →
        ¬ ([a, b] <:+: rest) :=
      fun a b ha hb hib =>
        hnd a b ha hb (hib.trans (List.suffix_cons c rest).isInfix)
    cases hc : pyIsSpace c with
    | true =>
      have hceq : c = ' ' := hso c (List.mem_cons_self c rest) hc
      subst hceq
      rw [show collapseWS false (' ' :: rest) = ' ' :: collapseWS true rest
          from by simp [collapseWS, hc]]
      rw [collapseWS_true_eq]
      have hdrop : rest.dropWhile pyIsSpace = rest := by
        cases hrest : rest with
        | nil => rfl
        | cons d r2 =>
          have hd : pyIsSpace d = false := by
            cases hdd : pyIsSpace d with
            | false => rfl
            | true =>
              exfalso
              refine hnd ' ' d hc hdd ?_
              rw [hrest]
              exact ⟨[], r2, rfl⟩
          rw [List.dropWhile_cons, if_neg (by simp [hd])]
      rw [hdrop, ih hso2 hnd2]
    | false =>
      rw [show collapseWS false (c :: rest) = c :: collapseWS false rest
          from by simp [collapseWS, hc]]
      rw [ih hso2 hnd2]

/-- The strip result begins the whitespace-free core of the text. -/
theorem pyStrip_pref (l : List Char) :
    pyStrip l <+: l.dropWhile pyIsSpace := by
  have h1 : (l.dropWhile pyIsSpace).reverse.dropWhile pyIsSpace <:+
      (l.dropWhile pyIsSpace).reverse := List.dropWhile_suffix pyIsSpace
  have h2 := ( List.reverse_prefix).mpr h1
  rw [List.reverse_reverse] at h2
  exact h2

/-- The strip result is an infix of the original text. -/
theorem pyStrip_isInfix (l : List Char) : pyStrip l <:+: l :=
  (pyStrip_pref l).isInfix.trans (List.dropWhile_suffix pyIsSpace).isInfix

/-- The strip result does not start with whitespace. -/
theorem pyStrip_head (l : List Char) (c : Char)
    (h : (pyStrip l).head? = some c) : pyIsSpace c = false := by
  rcases pyStrip_pref l with ⟨t, ht⟩
  have hA : (l.dropWhile pyIsSpace).head? = some c := by
    rw [← ht, List.head?_append, h]
    rfl
  have hnd := List.head?_dropWhile_not pyIsSpace l
  rw [hA] at hnd
  simpa using hnd

/-- The strip result does not end with whitespace. -/
theorem pyStrip_last (l : List Char) (c : Char)
    (h : (pyStrip l).getLast? = some c) : pyIsSpace c = false := by
  have h3 := List.head?_reverse (pyStrip l)
  rw [h] at h3
  rw [show (pyStrip l).reverse =
      (l.dropWhile pyIsSpace).reverse.dropWhile pyIsSpace from by
    simp [pyStrip]] at h3
  have hnd := List.head?_dropWhile_not pyIsSpace (l.dropWhile pyIsSpace).reverse
  rw [h3] at hnd
  simpa using hnd

/-- A text with no whitespace at either end is unchanged by the strip. -/
theorem pyStrip_id (l : List Char)
    (hh : ∀ c, l.head? = some c → pyIsSpace c = false)
    (hl : ∀ c, l.getLast? = some c → pyIsSpace c = false) :
    pyStrip l = l := by
  have h1 : l.dropWhile pyIsSpace = l := by
    cases hx : l with
    | nil => rfl
    | cons c rest =>
      have hc := hh c (by rw [hx]; rfl)
      rw [List.dropWhile_cons, if_neg (by simp [hc])]
  have h2 : l.reverse.dropWhile pyIsSpace = l.reverse := by
    cases hx : l.reverse with
    | nil => rfl
    | cons d r =>
      have hd : l.getLast? = some d := by
        rw [← List.head?_reverse, hx]
        rfl
      have hds := hl d hd
      rw [List.dropWhile_cons, if_neg (by simp [hds])]
  unfold pyStrip
  rw [h1, h2, List.reverse_reverse]

/-- The pause normalizer's output has no ellipsis, only plain isolated
spaces, and matches the collapse invariants. -/
theorem normalize_props (l : List Char) :
    ¬ (['.', '.', '.'] <:+: normalize_pauses l) ∧
    (∀ c ∈ normalize_pauses l, pyIsSpace c = true → c = ' ') ∧
    (∀ a b, pyIsSpace a = true → pyIsSpace b = true →
      ¬ ([a, b] <:+: normalize_pauses l)) := by
  have hdef : normalize_pauses l =
      pyStrip (collapseWS false (pyReplaceSkip ['.', '.', '.'] [','] 0 l)) :=
    rfl
  refine ⟨?_, ?_, ?_⟩
  · intro h
    rw [hdef] at h
    exact col_noTriple_aux _ _ (Nat.le_refl _) (repl_noTriple l)
      (h.trans (pyStrip_isInfix _))
  · intro c hc hsp
    rw [hdef] at hc
    exact col_spacesOk _ false c
      (List.Sublist.mem hc (pyStrip_isInfix _).sublist) hsp
  · intro a b ha hb h
    rw [hdef] at h
    exact col_noDouble_aux _ _ (Nat.le_refl _) a b ha hb
      (h.trans (pyStrip_isInfix _))

/-- A text satisfying all the normalizer's output invariants is a fixed
point of the normalizer. -/
theorem normalize_pauses_fix (m : List Char)
    (h3 : ¬ (['.', '.', '.'] <:+: m))
    (hso : ∀ c ∈ m, pyIsSpace c = true → c = ' ')
    (hnd : ∀ a b, pyIsSpace a = true → pyIsSpace b = true →
      ¬ ([a, b] <:+: m))
    (hh : ∀ c, m.head? = some c → pyIsSpace c = false)
    (hl : ∀ c, m.getLast? = some c → pyIsSpace c = false) :
    normalize_pauses m = m := by
  show pyStrip (collapseWS false (pyReplace m ['.', '.', '.'] [','])) = m
  rw [show pyReplace m ['.', '.', '.'] [','] =
      pyReplaceSkip ['.', '.', '.'] [','] 0 m from rfl]
  rw [repl_id m h3, col_id m hso hnd, pyStrip_id m hh hl]

/-- C10: the pause/whitespace normalizer is idempotent: its output never
contains the substring "...", never contains two adjacent whitespace
characters, and has no leading or trailing whitespace, so a second
application is the identity. -/
theorem C10_normalize_pauses_idempotent (l : List Char) :
    ¬ (['.', '.', '.'] <:+: normalize_pauses l) ∧
    (∀ a b, pyIsSpace a = true → pyIsSpace b = true →
      ¬ ([a, b] <:+: normalize_pauses l)) ∧
    (∀ c, (normalize_pauses l).head? = some c → pyIsSpace c = false) ∧
    (∀ c, (normalize_pauses l).getLast? = some c → pyIsSpace c = false) ∧
    normalize_pauses (normalize_pauses l) = normalize_pauses l := by
  obtain ⟨h3, hso, hnd⟩ := normalize_props l
  refine ⟨h3, hnd, fun c h => pyStrip_head _ c h,
    fun c h => pyStrip_last _ c h, ?_⟩
  exact normalize_pauses_fix (normalize_pauses l) h3 hso hnd
    (fun c h => pyStrip_head _ c h) (fun c h => pyStrip_last _ c h)

/-- C10 witness: idempotence evaluated at "Wait...   done". -/
theorem C10_normalize_pauses_idempotent_witness :
    normalize_pauses (normalize_pauses ("Wait...   done".toList)) =
      normalize_pauses ("Wait...   done".toList) :=
  (C10_normalize_pauses_idempotent ("Wait...   done".toList)).2.2.2.2
